/-
Verification of the BIP-39 mnemonic codec (src/index.ts) against its
natural-language specification.

Shallow embedding conventions:
* Byte sequences (Uint8Array) are `List Nat` with every element < 256 where
  the typed array guarantees it; arithmetic that JS performs on typed-array
  stores is made explicit with `% 256` / `% 65536`.
* Fallible operations return `Except Bip39Error`; each `throw` mirrors a
  `throw new Error(...)` site of the source (or of the platform, where noted).
* The cryptographic primitives sha256, sha512, pbkdf2 / pbkdf2Async and the
  platform services String.prototype.normalize("NFKD") and the async runtime
  are external to the repository; following the spec they are carried as
  explicit function parameters (`sha`, `prf`, `kdf`, `kdfAsync`, `nfkdFn`).
* The scure-base coder chain `checksum(1, calcChecksum) / radix2(11, true) /
  alphabet(wordlist)` used by `getCoder` is a dependency whose code is not in
  the repository; its stages are modelled from the spec (sections 4.2-4.4),
  see the doc comments on the individual definitions.
-/
import Mathlib

set_option maxRecDepth 2000

deriving instance DecidableEq for Except

namespace Bip39

/-- Failure kinds of the codec, one per `throw` site reachable from the
embedded operations (spec section 7 taxonomy plus the two dependency-level
failures `digitOutOfRange` and `oddBinaryLength`). -/
inductive Bip39Error where
  | invalidEntropyLength
  | invalidWordlist
  | invalidWordCount
  | unknownWord
  | digitOutOfRange
  | checksumMismatch
  | oddBinaryLength
  deriving DecidableEq

/-- One slot of the JS `string[]` wordlist array.  The three cases behave
differently and are kept apart: `str s` is a string element; `nonString r`
is a present element that is not a string (its JS value is not modelled,
only the text `r` that `Array.prototype.join` would print for it, for the
seed-derivation path); `hole` is an absent index, read as `undefined` but
skipped by `Array.prototype.forEach` and `Array.prototype.indexOf`. -/
inductive JsEntry where
  | str (s : String)
  | nonString (r : String)
  | hole
  deriving DecidableEq

/-- Is this slot a present element whose `typeof` is `'string'`? -/
def JsEntry.isStr : JsEntry → Bool
  | .str _ => true
  | _ => false

/-- Is this slot a present element (visited by `forEach`)? -/
def JsEntry.isPresent : JsEntry → Bool
  | .hole => false
  | _ => true

/-- The text `Array.prototype.join` prints for this slot: the string
itself, the rendering of a present non-string element, `""` for the
`undefined` read from a hole. -/
def JsEntry.joinText : JsEntry → String
  | .str s => s
  | .nonString r => r
  | .hole => ""

/-- A JS `string[]` wordlist array, slot by slot. -/
abbrev Wordlist := List JsEntry

/-- The `string | Uint8Array` union the public operations accept. -/
inductive Mnemonic where
  | str (s : String)
  | bytes (bs : List Nat)

/-! ### Text helpers: JS split(' '), join(' '), TextEncoder -/

/-- Model of JS `String.prototype.split(' ')` on the character list: splits at
every single space, keeping empty pieces (`"".split(' ') = [""]`). -/
def splitChars : List Char → List (List Char)
  | [] => [[]]
  | c :: rest =>
    let r := splitChars rest
    if c = ' ' then [] :: r
    else (c :: r.headD []) :: r.tail

/-- JS `str.split(' ')` as used by `normalize` in the source. -/
def splitSpace (t : String) : List String :=
  (splitChars t.data).map (fun cs => String.mk cs)

/-- JS `Array.prototype.join(' ')`; `undefined` entries have already been
turned into `""` by the caller (as JS join does). -/
def joinSpace : List String → String
  | [] => ""
  | [w] => w
  | w :: rest => w ++ " " ++ joinSpace rest

/-- UTF-8 encoding of one Unicode scalar value, as byte values. -/
def utf8EncodeCharNum (c : Char) : List Nat :=
  let n := c.toNat
  if n < 0x80 then [n]
  else if n < 0x800 then
    [0xC0 + n / 0x40, 0x80 + n % 0x40]
  else if n < 0x10000 then
    [0xE0 + n / 0x1000, 0x80 + n / 0x40 % 0x40, 0x80 + n % 0x40]
  else
    [0xF0 + n / 0x40000, 0x80 + n / 0x1000 % 0x40, 0x80 + n / 0x40 % 0x40,
      0x80 + n % 0x40]

/-- Model of JS `new TextEncoder().encode(s)`: the UTF-8 bytes of `s`. -/
def utf8 (s : String) : List Nat := s.data.flatMap utf8EncodeCharNum

/-! ### Bit-level helpers (spec section 4.3: MSB-first packing) -/

/-- Value of a bit list read MSB-first. -/
def bitsToNat (bs : List Bool) : Nat :=
  bs.foldl (fun a b => 2 * a + (if b then 1 else 0)) 0

/-- The low `w` bits of `n`, MSB first. -/
def msbBits : Nat → Nat → List Bool
  | 0, _ => []
  | w + 1, n => msbBits w (n / 2) ++ [decide (n % 2 = 1)]

/-- A byte sequence as its bit stream, MSB first within each byte. -/
def bytesToBits (bs : List Nat) : List Bool := bs.flatMap (msbBits 8)

/-- Fuel-driven chunking (structural recursion so the kernel can evaluate
concrete instances); `chunkList` supplies the fuel. -/
def chunkFuel (k : Nat) : Nat → List α → List (List α)
  | 0, _ => []
  | _, [] => []
  | fuel + 1, l => l.take k :: chunkFuel k fuel (l.drop k)

/-- Splits a list into consecutive chunks of length `k` (last chunk shorter
when `k` does not divide the length). -/
def chunkList (k : Nat) (l : List α) : List (List α) := chunkFuel k l.length l

/-- Flips the bit at position `i` (identity out of range). -/
def flipAt (i : Nat) (bs : List Bool) : List Bool :=
  bs.set i (! bs.getD i false)

/-! ### The codec, translated from src/index.ts -/

/-- Allowed entropy byte lengths, from `assert.bytes(entropy, 16, 20, 24, 28, 32)`. -/
def validEntropyLengths : List Nat := [16, 20, 24, 28, 32]

/-- Translation of `assertEntropy` (line 53): `assert.bytes` with the allowed
lengths. -/
def assertEntropy (e : List Nat) : Except Bip39Error Unit :=
  if e.length ∈ validEntropyLengths then pure () else throw .invalidEntropyLength

/-- Translation of `calcChecksum` (lines 90-96): the single checksum byte
`(sha256(entropy)[0] >> bitsLeft) << bitsLeft` with
`bitsLeft = 8 - entropy.length / 4`.  JS evaluates `entropy.length / 4` as a
float and the shift operator truncates the count, so for lengths ≤ 32 the
effective count is `(32 - entropy.length) / 4` in natural floor division
(the two agree on every length divisible by 4, in particular on all valid
entropy and decoded payload lengths).  `% 256` models the `Uint8Array`
store, and `headD 0` reads byte 0 of the digest. -/
def calcChecksum (sha : List Nat → List Nat) (e : List Nat) : Nat :=
  let bitsLeft := (32 - e.length) / 4
  (((sha e).headD 0 % 256) >>> bitsLeft) <<< bitsLeft

/-- Translation of the wordlist validation of `getCoder` (lines 98-103):
length must be 2^11, `wordlist[0]` must be a string (a hole at index 0 is
read as `undefined` and rejected here), and the `forEach` callback - which
per ECMAScript runs only on present elements, skipping holes - requires
every present element to be a string.  A hole at an index >= 1 therefore
passes the source's validation. -/
def validateWordlist (wl : Wordlist) : Bool :=
  wl.length == 2 ^ 11 && (wl.headD .hole).isStr
    && wl.all (fun x => !x.isPresent || x.isStr)

/-- The `getCoder` validation step as a fallible action. -/
def checkWordlist (wl : Wordlist) : Except Bip39Error Unit :=
  if validateWordlist wl then pure () else throw .invalidWordlist

/-- JS `wordlist[i]` as a string-or-not value: `some s` for a string
element, `none` for the `undefined` read beyond the end or at a hole and
for a non-string element (every consumer of this value only asks whether
it is a string, and which string). -/
def lookupWord (wl : Wordlist) (i : Nat) : Option String :=
  match wl.get? i with
  | some (.str s) => some s
  | _ => none

/-- JS `wordlist.indexOf(word)` as used on line 155; `===` matches a string
`word` exactly against the string elements (holes are skipped, and after
`getCoder`'s validation no present non-string element exists), and the `-1`
result for an absent word becomes 65535 through the `Uint16Array` store on
line 156.  A non-string `word` (the `undefined` read from a hole) matches
no entry of a validated wordlist. -/
def jsIndexOf (wl : Wordlist) (w : Option String) : Nat :=
  match w with
  | some s => if JsEntry.str s ∈ wl then wl.indexOf (.str s) else 65535
  | none => 65535

/-- The packed `(entropy ‖ checksum)` representation: the entropy bits
followed by the top `entropy.length / 4` bits of the checksum byte
(spec sections 4.2 and 4.3). -/
def packedBits (sha : List Nat → List Nat) (e : List Nat) : List Bool :=
  bytesToBits e ++ (msbBits 8 (calcChecksum sha e)).take (e.length / 4)

/-- Modelled from the spec (sections 4.2-4.3): the encode direction of the
scure-base chain `checksum(1, calcChecksum)` then `radix2(11, true)`, whose
code is not part of this repository.  The checksum byte is appended and the
bit stream is read MSB-first in 11-bit groups, stopping at the exact
entropy-bits + checksum-bits boundary (the low, zeroed bits of the checksum
byte are not read). -/
def coderEncodeDigits (sha : List Nat → List Nat) (e : List Nat) : List Nat :=
  (chunkList 11 (packedBits sha e)).map bitsToNat

/-- One 16-bit index as its two little-endian bytes, as
`new Uint8Array(new Uint16Array(indices).buffer)` lays them out (line 156;
byte order pinned little-endian, spec section 9 open question 1). -/
def le16Bytes (i : Nat) : List Nat := [i % 256, i / 256 % 256]

/-- Translation of `entropyToMnemonic` (lines 152-158): entropy assertion,
wordlist validation, coder encode, word lookup, `indexOf` per word, and the
little-endian `Uint16Array` serialization of the indices. -/
def entropyToMnemonic (sha : List Nat → List Nat) (e : List Nat)
    (wl : Wordlist) : Except Bip39Error (List Nat) := do
  let _ ← assertEntropy e
  let _ ← checkWordlist wl
  pure ((((coderEncodeDigits sha e).map (lookupWord wl)).map
    (jsIndexOf wl)).flatMap le16Bytes)

/-- Translation of `normalize` (lines 46-51): NFKD (the platform `nfkdFn`),
split on single spaces, and the word-count check; returns the normalized
string together with the words. -/
def normalize (nfkdFn : String → String) (s : String) :
    Except Bip39Error (String × List String) :=
  let norm := nfkdFn s
  let words := splitSpace norm
  if words.length ∈ [12, 15, 18, 21, 24] then pure (norm, words)
  else throw .invalidWordCount

/-- Modelled from the spec (section 4.4): reverse lookup of one word.  A
`none` word (a JS `undefined` produced by an out-of-range index) and a word
absent from the table both fail; the spec taxonomy calls both `UnknownWord`.
The JS `indexOf` result is non-negative exactly when the membership test
holds. -/
def wordToIndex (wl : Wordlist) (w : Option String) : Except Bip39Error Nat :=
  match w with
  | none => throw .unknownWord
  | some s =>
    if JsEntry.str s ∈ wl then pure (wl.indexOf (.str s))
    else throw .unknownWord

/-- Modelled from the spec (section 4.4): the alphabet (wordlist) decode
stage of the scure-base chain, one reverse lookup per word. -/
def alphabetDecode (wl : Wordlist) (words : List (Option String)) :
    Except Bip39Error (List Nat) :=
  words.mapM (wordToIndex wl)

/-- Modelled from the spec (section 4.3): the radix decode stage.  Each
11-bit value (anything ≥ 2^11 is rejected by the dependency) contributes its
bits MSB-first; the stream is packed into bytes, the final partial byte
padded with low zero bits. -/
def radixDecode (digits : List Nat) : Except Bip39Error (List Nat) :=
  if digits.all (fun d => d < 2 ^ 11) then
    pure ((chunkList 8 (digits.flatMap (msbBits 11) ++
      List.replicate ((8 - (digits.flatMap (msbBits 11)).length % 8) % 8)
        false)).map bitsToNat)
  else throw .digitOutOfRange

/-- Modelled from the spec (section 4.3 decode): the checksum verification
stage; splits off the final byte, recomputes `calcChecksum` over the payload
and compares. -/
def checksumDecode (sha : List Nat → List Nat) (data : List Nat) :
    Except Bip39Error (List Nat) :=
  match data.getLast? with
  | none => throw .checksumMismatch
  | some last =>
    if last = calcChecksum sha data.dropLast then pure data.dropLast
    else throw .checksumMismatch

/-- The decode direction of the `getCoder` chain. -/
def coderDecode (sha : List Nat → List Nat) (wl : Wordlist)
    (words : List (Option String)) : Except Bip39Error (List Nat) := do
  let digits ← alphabetDecode wl words
  let bytes ← radixDecode digits
  checksumDecode sha bytes

/-- Two little-endian bytes back to the 16-bit index they store. -/
def u16OfPair : List Nat → Nat
  | [a, b] => a % 256 + 256 * (b % 256)
  | _ => 0

/-- Translation of `new Uint16Array(mnemonic.buffer)` (lines 131-132, 219):
per ECMAScript this throws a RangeError when the underlying buffer's byte
length is odd (the view owns its whole buffer here), and otherwise reads the
bytes pairwise little-endian. -/
def bytesToU16 (bs : List Nat) : Except Bip39Error (List Nat) :=
  if bs.length % 2 = 0 then pure ((chunkList 2 bs).map u16OfPair)
  else throw .oddBinaryLength

/-- The string branch of `mnemonicToEntropy` (lines 126-128): normalization
first, then the coder (wordlist validation) and the decode of the words. -/
def decodeStr (sha : List Nat → List Nat) (nfkdFn : String → String)
    (wl : Wordlist) (s : String) : Except Bip39Error (List Nat) := do
  let n ← normalize nfkdFn s
  let _ ← checkWordlist wl
  coderDecode sha wl (n.2.map some)

/-- The byte-array branch of `mnemonicToEntropy` (lines 129-133): the coder
is built first (JS evaluates `getCoder(wordlist).decode` before the
argument list), then the bytes are reinterpreted as 16-bit indices and the
corresponding wordlist entries are decoded. -/
def decodeBytes (sha : List Nat → List Nat) (wl : Wordlist) (bs : List Nat) :
    Except Bip39Error (List Nat) := do
  let _ ← checkWordlist wl
  let idx ← bytesToU16 bs
  coderDecode sha wl (idx.map (lookupWord wl))

/-- Translation of `mnemonicToEntropy` (lines 124-137): branch on the input
form, then `assertEntropy` on the decoded result. -/
def mnemonicToEntropy (sha : List Nat → List Nat) (nfkdFn : String → String)
    (m : Mnemonic) (wl : Wordlist) : Except Bip39Error (List Nat) := do
  let entropy ← match m with
    | .str s => decodeStr sha nfkdFn wl s
    | .bytes bs => decodeBytes sha wl bs
  let _ ← assertEntropy entropy
  pure entropy

/-- Translation of `validateMnemonic` (lines 163-170): the try/catch around
`mnemonicToEntropy`. -/
def validateMnemonic (sha : List Nat → List Nat) (nfkdFn : String → String)
    (m : Mnemonic) (wl : Wordlist) : Bool :=
  match mnemonicToEntropy sha nfkdFn m wl with
  | .ok _ => true
  | .error _ => false

/-- Translation of `salt` (line 172): `nfkd("mnemonic" + passphrase)`. -/
def salt (nfkdFn : String → String) (passphrase : String) : String :=
  nfkdFn ("mnemonic" ++ passphrase)

/-- Translation of `encodeMnemonicForSeedDerivation` (lines 213-225): a
string is normalized and UTF-8 encoded; a byte array is reinterpreted as
16-bit indices (RangeError on odd length) whose wordlist slots - rendered
by `Array.prototype.join`, which prints `""` for the `undefined` read at an
absent index - are joined with single spaces and UTF-8 encoded, with no
normalization, no word-count check and no index-range check.
`wl.get? i |>.getD .hole` is the slot at `i`, an out-of-range index reading
as a hole (`undefined`). -/
def encodeMnemonicForSeedDerivation (nfkdFn : String → String) (m : Mnemonic)
    (wl : Wordlist) : Except Bip39Error (List Nat) :=
  match m with
  | .str s => do
    let n ← normalize nfkdFn s
    pure (utf8 n.1)
  | .bytes bs => do
    let idx ← bytesToU16 bs
    pure (utf8 (joinSpace (idx.map (fun i => (wl.get? i |>.getD .hole).joinText))))

/-- Translation of `mnemonicToSeedSync` (lines 201-208): pbkdf2 over the
encoded mnemonic with salt `nfkd("mnemonic" + passphrase)`, iteration count
2048 and output length 64.  `kdf` is the external `pbkdf2(sha512, ...)`
applied to the UTF-8 bytes of the salt string (as the dependency does
internally); `prf` is the 512-bit keyed hash. -/
def mnemonicToSeedSync (kdf : (List Nat → List Nat) → List Nat → List Nat → Nat → Nat → List Nat)
    (prf : List Nat → List Nat) (nfkdFn : String → String) (m : Mnemonic)
    (wl : Wordlist) (passphrase : String) : Except Bip39Error (List Nat) := do
  let p ← encodeMnemonicForSeedDerivation nfkdFn m wl
  pure (kdf prf p (utf8 (salt nfkdFn passphrase)) 2048 64)

/-- Translation of `mnemonicToSeed` (lines 185-188): identical to the sync
form except that the external `pbkdf2Async` (`kdfAsync`) runs the iteration;
the promise is modelled by its resolved value. -/
def mnemonicToSeed (kdfAsync : (List Nat → List Nat) → List Nat → List Nat → Nat → Nat → List Nat)
    (prf : List Nat → List Nat) (nfkdFn : String → String) (m : Mnemonic)
    (wl : Wordlist) (passphrase : String) : Except Bip39Error (List Nat) := do
  let p ← encodeMnemonicForSeedDerivation nfkdFn m wl
  pure (kdfAsync prf p (utf8 (salt nfkdFn passphrase)) 2048 64)

/-- The seed exactly as the spec words it (section 4.7): the KDF applied with
password = UTF-8 bytes of the NFKD-normalized mnemonic text and salt =
UTF-8 bytes of the literal "mnemonic" concatenated with the NFKD-normalized
passphrase, iteration count 2048, output length 64. -/
def specSeed (kdf : (List Nat → List Nat) → List Nat → List Nat → Nat → Nat → List Nat)
    (prf : List Nat → List Nat) (nfkdFn : String → String) (m : String)
    (passphrase : String) : List Nat :=
  kdf prf (utf8 (nfkdFn m)) (utf8 ("mnemonic" ++ nfkdFn passphrase)) 2048 64

/-- The binary phrase whose packed representation is the bit list `bs`:
its 11-bit groups serialized as little-endian 16-bit indices. -/
def phraseOfBits (bs : List Bool) : Mnemonic :=
  .bytes (((chunkList 11 bs).map bitsToNat).flatMap le16Bytes)

/-- The packed representation of entropy `e` with the checksum bit at offset
`j` of the checksum region flipped. -/
def flipChecksumBit (sha : List Nat → List Nat) (e : List Nat) (j : Nat) :
    List Bool :=
  bytesToBits e ++ flipAt j ((msbBits 8 (calcChecksum sha e)).take (e.length / 4))

/-! ### Except-monad helpers -/

theorem exc_bind_ok {ε α β : Type} (a : α) (f : α → Except ε β) :
    (Except.ok a >>= f) = f a := rfl

theorem exc_bind_error {ε α β : Type} (c : ε) (f : α → Except ε β) :
    ((Except.error c : Except ε α) >>= f) = Except.error c := rfl

theorem exc_bind_ok_iff {ε α β : Type} {x : Except ε α} {f : α → Except ε β}
    {b : β} : (x >>= f) = .ok b ↔ ∃ a, x = .ok a ∧ f a = .ok b := by
  cases x with
  | ok a => simp [exc_bind_ok]
  | error c => simp [exc_bind_error]

theorem exc_bind_error_iff {ε α β : Type} {x : Except ε α} {f : α → Except ε β}
    {c : ε} : (x >>= f) = .error c ↔
      x = .error c ∨ ∃ a, x = .ok a ∧ f a = .error c := by
  cases x with
  | ok a => simp [exc_bind_ok]
  | error d => simp [exc_bind_error, eq_comm]

theorem mapM_ok_of {ε α β : Type} {l : List α} {f : α → Except ε β}
    {g : α → β} (h : ∀ a ∈ l, f a = .ok (g a)) :
    l.mapM f = .ok (l.map g) := by
  induction l with
  | nil => rfl
  | cons a t ih =>
    rw [List.mapM_cons, h a (by simp), exc_bind_ok,
      ih (fun x hx => h x (by simp [hx]))]
    rfl

theorem mapM_error_mem {ε α β : Type} {l : List α} {f : α → Except ε β}
    {c : ε} (h : l.mapM f = .error c) : ∃ a ∈ l, f a = .error c := by
  induction l with
  | nil => exact absurd h (by simp [List.mapM, List.mapM.loop, pure, Except.pure])
  | cons a t ih =>
    rw [List.mapM_cons] at h
    cases hfa : f a with
    | error d =>
      rw [hfa, exc_bind_error] at h
      cases h
      exact ⟨a, by simp, hfa⟩
    | ok b =>
      rw [hfa, exc_bind_ok] at h
      cases ht : t.mapM f with
      | error d =>
        rw [ht, exc_bind_error] at h
        cases h
        obtain ⟨x, hx, hfx⟩ := ih ht
        exact ⟨x, by simp [hx], hfx⟩
      | ok bs => rw [ht] at h; cases h

/-! ### Bit arithmetic lemmas -/

theorem bitsToNat_go (l : List Bool) (a : Nat) :
    l.foldl (fun x b => 2 * x + (if b then 1 else 0)) a
      = a * 2 ^ l.length + bitsToNat l := by
  induction l generalizing a with
  | nil => simp [bitsToNat]
  | cons b t ih =>
    simp only [List.foldl_cons, bitsToNat, List.length_cons]
    rw [ih (2 * a + _), ih (2 * 0 + _)]
    ring

theorem bitsToNat_cons (b : Bool) (t : List Bool) :
    bitsToNat (b :: t) = (if b then 1 else 0) * 2 ^ t.length + bitsToNat t := by
  show List.foldl _ _ (b :: t) = _
  rw [List.foldl_cons, bitsToNat_go]
  cases b <;> simp [bitsToNat]

theorem bitsToNat_append (xs ys : List Bool) :
    bitsToNat (xs ++ ys) = bitsToNat xs * 2 ^ ys.length + bitsToNat ys := by
  show List.foldl _ _ (xs ++ ys) = _
  rw [List.foldl_append, bitsToNat_go]
  rfl

theorem bitsToNat_lt (l : List Bool) : bitsToNat l < 2 ^ l.length := by
  induction l with
  | nil => simp [bitsToNat]
  | cons b t ih =>
    rw [bitsToNat_cons, List.length_cons, pow_succ]
    cases b <;> simp <;> omega

theorem bitsToNat_singleton (b : Bool) :
    bitsToNat [b] = if b then 1 else 0 := by
  rw [bitsToNat_cons]
  simp [bitsToNat]

theorem length_msbBits (w n : Nat) : (msbBits w n).length = w := by
  induction w generalizing n with
  | zero => rfl
  | succ w ih => simp [msbBits, ih]

theorem bitsToNat_msbBits {w n : Nat} (h : n < 2 ^ w) :
    bitsToNat (msbBits w n) = n := by
  induction w generalizing n with
  | zero => interval_cases n <;> simp [msbBits, bitsToNat]
  | succ w ih =>
    rw [msbBits, bitsToNat_append, bitsToNat_singleton, ih (by omega)]
    have h2 := Nat.mod_two_eq_zero_or_one n
    rcases h2 with h2 | h2 <;> simp [h2] <;> omega

theorem msbBits_bitsToNat {l : List Bool} {w : Nat} (h : l.length = w) :
    msbBits w (bitsToNat l) = l := by
  induction l using List.reverseRecOn generalizing w with
  | nil => subst h; rfl
  | append_singleton t b ih =>
    subst h
    simp only [List.length_append, List.length_singleton]
    rw [msbBits, bitsToNat_append, bitsToNat_singleton]
    have hdiv : (bitsToNat t * 2 ^ [b].length + (if b then 1 else 0)) / 2
        = bitsToNat t := by cases b <;> simp <;> omega
    have hmod : (bitsToNat t * 2 ^ [b].length + (if b then 1 else 0)) % 2
        = if b then 1 else 0 := by cases b <;> simp [Nat.add_mul_mod_self_left] <;> omega
    simp only [List.length_singleton, pow_one] at hdiv hmod
    rw [List.length_singleton, pow_one] at *
    rw [hdiv, hmod, ih rfl]
    cases b <;> simp

theorem bitsToNat_inj {l₁ l₂ : List Bool} (hl : l₁.length = l₂.length)
    (h : bitsToNat l₁ = bitsToNat l₂) : l₁ = l₂ := by
  have h1 := msbBits_bitsToNat (l := l₁) rfl
  have h2 := msbBits_bitsToNat (l := l₂) rfl
  rw [← h1, ← h2, hl, h]

theorem msbBits_mul_pow {s w m : Nat} (h : s ≤ w) :
    msbBits w (m * 2 ^ s) = msbBits (w - s) m ++ List.replicate s false := by
  induction s generalizing w with
  | zero => simp
  | succ s ih =>
    cases w with
    | zero => omega
    | succ w =>
      rw [msbBits]
      have h1 : m * 2 ^ (s + 1) / 2 = m * 2 ^ s := by
        rw [pow_succ, ← Nat.mul_assoc]
        exact Nat.mul_div_cancel _ (by norm_num)
      have h2 : m * 2 ^ (s + 1) % 2 = 0 := by
        rw [pow_succ, ← Nat.mul_assoc]
        exact Nat.mul_mod_left _ 2
      rw [h1, h2, ih (by omega)]
      have : w + 1 - (s + 1) = w - s := by omega
      rw [this]
      simp [List.replicate_succ' (n := s)]

/-! ### Chunking lemmas -/

theorem chunkFuel_congr {α : Type} {k : Nat} (hk : k ≠ 0) :
    ∀ (fuel fuel' : Nat) (l : List α), l.length ≤ fuel → l.length ≤ fuel' →
      chunkFuel k fuel l = chunkFuel k fuel' l := by
  intro fuel
  induction fuel with
  | zero =>
    intro fuel' l h _
    have : l = [] := List.length_eq_zero.mp (by omega)
    subst this
    cases fuel' <;> rfl
  | succ fuel ih =>
    intro fuel' l h h'
    cases l with
    | nil => cases fuel' <;> rfl
    | cons a t =>
      cases fuel' with
      | zero => simp at h'
      | succ fuel' =>
        show _ :: _ = _ :: _
        congr 1
        apply ih
        · simp only [List.length_drop, List.length_cons]
          simp only [List.length_cons] at h
          omega
        · simp only [List.length_drop, List.length_cons]
          simp only [List.length_cons] at h'
          omega

theorem chunkList_cons_of {α : Type} {k : Nat} (hk : k ≠ 0) (l : List α)
    (hl : l ≠ []) : chunkList k l = l.take k :: chunkList k (l.drop k) := by
  cases l with
  | nil => exact absurd rfl hl
  | cons a t =>
    show chunkFuel k (t.length + 1) _ = _
    show _ :: _ = _ :: _
    congr 1
    apply chunkFuel_congr hk
    · simp only [List.length_drop, List.length_cons]; omega
    · exact Nat.le_refl _

theorem chunkList_append {α : Type} {k : Nat} (hk : k ≠ 0) {x : List α}
    (hx : x.length = k) (y : List α) :
    chunkList k (x ++ y) = x :: chunkList k y := by
  have hxne : x ≠ [] := by
    intro h; subst h; simp at hx; omega
  rw [chunkList_cons_of hk _ (by simp [hxne])]
  subst hx
  rw [List.take_left, List.drop_left]

theorem chunkList_flatMap {α β : Type} {k : Nat} (hk : k ≠ 0)
    {f : α → List β} (hf : ∀ a, (f a).length = k) (l : List α) :
    chunkList k (l.flatMap f) = l.map f := by
  induction l with
  | nil => rfl
  | cons a t ih =>
    rw [List.flatMap_cons, chunkList_append hk (hf a), ih, List.map_cons]

theorem dvd_length_drop {α : Type} {k : Nat} (hk : k ≠ 0) {l : List α}
    (hdvd : k ∣ l.length) (hne : l ≠ []) :
    k ≤ l.length ∧ k ∣ (l.drop k).length := by
  rcases hdvd with ⟨m, hm⟩
  have hm0 : m ≠ 0 := by
    intro h0
    subst h0
    rw [Nat.mul_zero] at hm
    exact hne (List.length_eq_zero.mp hm)
  have hkle : k ≤ l.length := by
    rw [hm]
    calc k = k * 1 := by ring
      _ ≤ k * m := Nat.mul_le_mul_left k (by omega)
  refine ⟨hkle, ⟨m - 1, ?_⟩⟩
  rw [List.length_drop, hm]
  cases m with
  | zero => omega
  | succ m => simp [Nat.mul_succ]

theorem chunkList_mem_length_le {α : Type} {k : Nat} (hk : k ≠ 0)
    (l : List α) : ∀ c ∈ chunkList k l, c.length ≤ k := by
  suffices H : ∀ (n : Nat) (l : List α), l.length ≤ n →
      ∀ c ∈ chunkList k l, c.length ≤ k from H l.length l (Nat.le_refl _)
  intro n
  induction n with
  | zero =>
    intro l h c hc
    have : l = [] := List.length_eq_zero.mp (by omega)
    subst this
    simp [chunkList, chunkFuel] at hc
  | succ n ih =>
    intro l h c hc
    cases l with
    | nil => simp [chunkList, chunkFuel] at hc
    | cons a t =>
      have hdn : (List.drop k (a :: t)).length ≤ n := by
        simp only [List.length_drop, List.length_cons]
        simp only [List.length_cons] at h
        omega
      rw [chunkList_cons_of hk _ (by simp)] at hc
      rcases List.mem_cons.mp hc with hc | hc
      · subst hc; simp
      · exact ih _ hdn c hc

theorem chunkList_length_eq {α : Type} {k : Nat} (hk : k ≠ 0)
    (l : List α) (hdvd : k ∣ l.length) : ∀ c ∈ chunkList k l, c.length = k := by
  suffices H : ∀ (n : Nat) (l : List α), l.length ≤ n → k ∣ l.length →
      ∀ c ∈ chunkList k l, c.length = k from H l.length l (Nat.le_refl _) hdvd
  intro n
  induction n with
  | zero =>
    intro l h _ c hc
    have : l = [] := List.length_eq_zero.mp (by omega)
    subst this
    simp [chunkList, chunkFuel] at hc
  | succ n ih =>
    intro l h hd c hc
    cases l with
    | nil => simp [chunkList, chunkFuel] at hc
    | cons a t =>
      obtain ⟨hkle, hd'⟩ := dvd_length_drop hk hd (by simp)
      have hdn : (List.drop k (a :: t)).length ≤ n := by
        simp only [List.length_drop, List.length_cons]
        simp only [List.length_cons] at h
        omega
      rw [chunkList_cons_of hk _ (by simp)] at hc
      rcases List.mem_cons.mp hc with hc | hc
      · subst hc; rw [List.length_take]; omega
      · exact ih _ hdn hd' c hc

theorem chunkList_flatten {α : Type} {k : Nat} (hk : k ≠ 0)
    (l : List α) (hdvd : k ∣ l.length) : (chunkList k l).flatMap id = l := by
  suffices H : ∀ (n : Nat) (l : List α), l.length ≤ n → k ∣ l.length →
      (chunkList k l).flatMap id = l from H l.length l (Nat.le_refl _) hdvd
  intro n
  induction n with
  | zero =>
    intro l h _
    have : l = [] := List.length_eq_zero.mp (by omega)
    subst this
    rfl
  | succ n ih =>
    intro l h hd
    cases l with
    | nil => rfl
    | cons a t =>
      obtain ⟨hkle, hd'⟩ := dvd_length_drop hk hd (by simp)
      have hdn : (List.drop k (a :: t)).length ≤ n := by
        simp only [List.length_drop, List.length_cons]
        simp only [List.length_cons] at h
        omega
      rw [chunkList_cons_of hk _ (by simp), List.flatMap_cons, id_eq,
        ih _ hdn hd']
      exact List.take_append_drop k (a :: t)

/-! ### Length bookkeeping -/

theorem length_flatMap_const {α β : Type} {k : Nat} {f : α → List β}
    (hf : ∀ a, (f a).length = k) (l : List α) :
    (l.flatMap f).length = k * l.length := by
  induction l with
  | nil => simp
  | cons a t ih => simp [List.flatMap_cons, ih, hf a, Nat.mul_succ]; omega

theorem length_bytesToBits (bs : List Nat) :
    (bytesToBits bs).length = 8 * bs.length :=
  length_flatMap_const (fun b => length_msbBits 8 b) bs

theorem valid_length_cases {L : Nat} (he : L ∈ validEntropyLengths) :
    L = 16 ∨ L = 20 ∨ L = 24 ∨ L = 28 ∨ L = 32 := by
  simp [validEntropyLengths] at he
  tauto

/-! ### Wordlist validation characterization -/

theorem entry_check_iff (x : JsEntry) :
    (!x.isPresent || x.isStr) = true
      ↔ (x.isPresent = true → x.isStr = true) := by
  cases x <;> simp [JsEntry.isPresent, JsEntry.isStr]

theorem validateWordlist_iff {wl : Wordlist} :
    validateWordlist wl = true
      ↔ wl.length = 2048 ∧ (wl.headD .hole).isStr = true
        ∧ ∀ x ∈ wl, x.isPresent = true → x.isStr = true := by
  simp only [validateWordlist, Bool.and_eq_true, beq_iff_eq,
    List.all_eq_true]
  constructor
  · rintro ⟨⟨hlen, hhead⟩, hall⟩
    exact ⟨by omega, hhead, fun x hx => (entry_check_iff x).mp (hall x hx)⟩
  · rintro ⟨hlen, hhead, hall⟩
    exact ⟨⟨by omega, hhead⟩, fun x hx => (entry_check_iff x).mpr (hall x hx)⟩

theorem validateWordlist_length {wl : Wordlist}
    (h : validateWordlist wl = true) : wl.length = 2048 :=
  (validateWordlist_iff.mp h).1

theorem validateWordlist_of_strings {wl : Wordlist} (hlen : wl.length = 2048)
    (hstr : ∀ x ∈ wl, ∃ s, x = JsEntry.str s) : validateWordlist wl = true := by
  refine validateWordlist_iff.mpr ⟨hlen, ?_, ?_⟩
  · have hne : wl ≠ [] := by
      intro hc
      rw [hc] at hlen
      cases hlen
    have hmem : wl.headD .hole ∈ wl := by
      cases wl with
      | nil => exact absurd rfl hne
      | cons a t => simp
    obtain ⟨s, hs⟩ := hstr _ hmem
    rw [hs]
    rfl
  · intro x hx _
    obtain ⟨s, hs⟩ := hstr x hx
    rw [hs]
    rfl

/-! ### Checksum structure -/

theorem calcChecksum_eq_mul (sha : List Nat → List Nat) (e : List Nat) :
    calcChecksum sha e
      = ((sha e).headD 0 % 256) / 2 ^ ((32 - e.length) / 4)
        * 2 ^ ((32 - e.length) / 4) := by
  simp [calcChecksum, Nat.shiftLeft_eq, Nat.shiftRight_eq_div_pow]

theorem calcChecksum_lt (sha : List Nat → List Nat) (e : List Nat) :
    calcChecksum sha e < 256 := by
  rw [calcChecksum_eq_mul]
  calc ((sha e).headD 0 % 256) / 2 ^ ((32 - e.length) / 4)
        * 2 ^ ((32 - e.length) / 4)
      ≤ (sha e).headD 0 % 256 := Nat.div_mul_le_self _ _
    _ < 256 := Nat.mod_lt _ (by norm_num)

theorem msbBits_calcChecksum {sha : List Nat → List Nat} {e : List Nat}
    (h4 : e.length % 4 = 0) (h32 : e.length ≤ 32) :
    msbBits 8 (calcChecksum sha e)
      = (msbBits 8 (calcChecksum sha e)).take (e.length / 4)
        ++ List.replicate (8 - e.length / 4) false := by
  have hs : (32 - e.length) / 4 = 8 - e.length / 4 := by omega
  have hsle : 8 - e.length / 4 ≤ 8 := by omega
  rw [calcChecksum_eq_mul, hs, msbBits_mul_pow hsle]
  have h8 : 8 - (8 - e.length / 4) = e.length / 4 := by omega
  rw [h8]
  congr 1
  rw [List.take_append_of_le_length (by rw [length_msbBits])]
  rw [List.take_of_length_le (by rw [length_msbBits])]

/-! ### Encode-pipeline lemmas -/

theorem flatMap_congr_mem {α β : Type} {l : List α} {f g : α → List β}
    (h : ∀ a ∈ l, f a = g a) : l.flatMap f = l.flatMap g := by
  induction l with
  | nil => rfl
  | cons a t ih =>
    rw [List.flatMap_cons, List.flatMap_cons, h a (by simp),
      ih (fun x hx => h x (by simp [hx]))]

theorem length_packedBits {sha : List Nat → List Nat} {e : List Nat}
    (h32 : e.length ≤ 32) :
    (packedBits sha e).length = 8 * e.length + e.length / 4 := by
  rw [packedBits, List.length_append, length_bytesToBits, List.length_take,
    length_msbBits]
  omega

theorem eleven_dvd_bits {L : Nat} (h4 : L % 4 = 0) :
    11 ∣ 8 * L + L / 4 := ⟨3 * (L / 4), by omega⟩

theorem coderEncodeDigits_lt (sha : List Nat → List Nat) (e : List Nat) :
    ∀ d ∈ coderEncodeDigits sha e, d < 2048 := by
  intro d hd
  obtain ⟨c, hc, rfl⟩ := List.mem_map.mp hd
  calc bitsToNat c < 2 ^ c.length := bitsToNat_lt c
    _ ≤ 2 ^ 11 :=
      Nat.pow_le_pow_right (by norm_num)
        (chunkList_mem_length_le (by norm_num) _ c hc)

theorem flatMap_msb11_encodeDigits {sha : List Nat → List Nat} {e : List Nat}
    (h4 : e.length % 4 = 0) (h32 : e.length ≤ 32) :
    (coderEncodeDigits sha e).flatMap (msbBits 11) = packedBits sha e := by
  have hdvd : (11 : Nat) ∣ (packedBits sha e).length := by
    rw [length_packedBits h32]
    exact eleven_dvd_bits h4
  rw [coderEncodeDigits, List.flatMap_map]
  rw [flatMap_congr_mem (g := id) ?_]
  · exact chunkList_flatten (by norm_num) _ hdvd
  · intro c hc
    exact msbBits_bitsToNat (chunkList_length_eq (by norm_num) _ hdvd c hc)

theorem digits_chunk11_lt (bs : List Bool) :
    ∀ d ∈ (chunkList 11 bs).map bitsToNat, d < 2048 := by
  intro d hd
  obtain ⟨c, hc, rfl⟩ := List.mem_map.mp hd
  calc bitsToNat c < 2 ^ c.length := bitsToNat_lt c
    _ ≤ 2 ^ 11 :=
      Nat.pow_le_pow_right (by norm_num)
        (chunkList_mem_length_le (by norm_num) _ c hc)

theorem radixDecode_chunk11 {e : List Nat} (hpos : 4 ≤ e.length)
    (h4 : e.length % 4 = 0) (h32 : e.length ≤ 32) (hb : ∀ b ∈ e, b < 256)
    {X : List Bool} (hX : X.length = e.length / 4) :
    radixDecode ((chunkList 11 (bytesToBits e ++ X)).map bitsToNat)
      = .ok (e ++ [bitsToNat (X ++ List.replicate (8 - e.length / 4) false)]) := by
  have hBlen : (bytesToBits e ++ X).length = 8 * e.length + e.length / 4 := by
    rw [List.length_append, length_bytesToBits, hX]
  have hdvd : (11 : Nat) ∣ (bytesToBits e ++ X).length := by
    rw [hBlen]
    exact eleven_dvd_bits h4
  rw [radixDecode]
  rw [if_pos ?_]
  · have hjoin : ((chunkList 11 (bytesToBits e ++ X)).map bitsToNat).flatMap
        (msbBits 11) = bytesToBits e ++ X := by
      rw [List.flatMap_map]
      rw [flatMap_congr_mem (g := id) ?_]
      · exact chunkList_flatten (by norm_num) _ hdvd
      · intro c hc
        exact msbBits_bitsToNat (chunkList_length_eq (by norm_num) _ hdvd c hc)
    rw [hjoin]
    have hq : e.length / 4 ≤ 8 := by omega
    have hq1 : 1 ≤ e.length / 4 := by omega
    have hpad : (8 - (bytesToBits e ++ X).length % 8) % 8
        = 8 - e.length / 4 := by
      rw [hBlen]
      omega
    rw [hpad]
    have hYlen : (X ++ List.replicate (8 - e.length / 4) false).length = 8 := by
      rw [List.length_append, List.length_replicate, hX]
      omega
    have hfull : bytesToBits e ++ X ++ List.replicate (8 - e.length / 4) false
        = bytesToBits (e
            ++ [bitsToNat (X ++ List.replicate (8 - e.length / 4) false)]) := by
      rw [List.append_assoc]
      calc bytesToBits e ++ (X ++ List.replicate (8 - e.length / 4) false)
          = bytesToBits e ++ msbBits 8
              (bitsToNat (X ++ List.replicate (8 - e.length / 4) false)) := by
            rw [msbBits_bitsToNat hYlen]
        _ = bytesToBits (e
              ++ [bitsToNat (X ++ List.replicate (8 - e.length / 4) false)]) := by
            simp [bytesToBits, List.flatMap_append]
    rw [hfull, bytesToBits, chunkList_flatMap (by norm_num)
      (fun b => length_msbBits 8 b), List.map_map]
    have hmapid : (e ++ [bitsToNat (X ++ List.replicate (8 - e.length / 4) false)]).map
          (bitsToNat ∘ msbBits 8)
        = (e ++ [bitsToNat (X ++ List.replicate (8 - e.length / 4) false)]).map
          id := by
      apply List.map_congr_left
      intro b hbmem
      rcases List.mem_append.mp hbmem with hmem | hmem
      · exact bitsToNat_msbBits (by have := hb b hmem; norm_num; omega)
      · have hbv : b = bitsToNat (X ++ List.replicate (8 - e.length / 4) false) := by
          simpa using hmem
        subst hbv
        refine bitsToNat_msbBits ?_
        have := bitsToNat_lt (X ++ List.replicate (8 - e.length / 4) false)
        rw [hYlen] at this
        norm_num
        omega
    rw [hmapid, List.map_id]
    rfl
  · rw [List.all_eq_true]
    intro d hd
    simpa using digits_chunk11_lt _ d hd

theorem radixDecode_encodeDigits {sha : List Nat → List Nat} {e : List Nat}
    (hpos : 4 ≤ e.length) (h4 : e.length % 4 = 0) (h32 : e.length ≤ 32)
    (hb : ∀ b ∈ e, b < 256) :
    radixDecode (coderEncodeDigits sha e) = .ok (e ++ [calcChecksum sha e]) := by
  have hX : ((msbBits 8 (calcChecksum sha e)).take (e.length / 4)).length
      = e.length / 4 := by
    rw [List.length_take, length_msbBits]
    omega
  have h := radixDecode_chunk11 hpos h4 h32 hb hX
  rw [coderEncodeDigits, packedBits, h]
  have hcs : bitsToNat ((msbBits 8 (calcChecksum sha e)).take (e.length / 4)
      ++ List.replicate (8 - e.length / 4) false) = calcChecksum sha e := by
    rw [← msbBits_calcChecksum h4 h32]
    have hlt : calcChecksum sha e < 2 ^ 8 := by
      have := calcChecksum_lt sha e
      norm_num
      omega
    exact bitsToNat_msbBits hlt
  rw [hcs]

theorem checksumDecode_append (sha : List Nat → List Nat) (e : List Nat) :
    checksumDecode sha (e ++ [calcChecksum sha e]) = .ok e := by
  simp [checksumDecode, List.getLast?_concat, List.dropLast_concat]
  rfl

/-! ### Wordlist lookup round trips -/

theorem lookupWord_str {wl : Wordlist} {d : Nat} {s : String}
    (h : d < wl.length) (hs : wl[d] = JsEntry.str s) :
    lookupWord wl d = some s := by
  rw [lookupWord, List.get?_eq_get h, List.get_eq_getElem, hs]

theorem indexOf_getElem_nodup {l : Wordlist} (hnd : l.Nodup) :
    ∀ {d : Nat} (h : d < l.length), l.indexOf l[d] = d := by
  induction l with
  | nil => intro d h; simp at h
  | cons a t ih =>
    intro d h
    cases d with
    | zero => simp [List.indexOf_cons]
    | succ d =>
      have hdt : d < t.length := by simpa using h
      have hgs : (a :: t)[d + 1] = t[d] := by simp
      have hmem : t[d] ∈ t := List.getElem_mem hdt
      have hne : (a == t[d]) = false := by
        rw [beq_eq_false_iff_ne]
        intro hc
        exact (List.nodup_cons.mp hnd).1 (hc ▸ hmem)
      rw [hgs, List.indexOf_cons, hne, cond_false, ih (List.nodup_cons.mp hnd).2 hdt]

theorem jsIndexOf_str {wl : Wordlist} (hnd : wl.Nodup) {d : Nat} {s : String}
    (h : d < wl.length) (hs : wl[d] = JsEntry.str s) :
    jsIndexOf wl (some s) = d := by
  have hmem : JsEntry.str s ∈ wl := hs ▸ List.getElem_mem h
  simp only [jsIndexOf]
  rw [if_pos hmem, ← hs]
  exact indexOf_getElem_nodup hnd h

theorem encode_index_id {sha : List Nat → List Nat} {wl : Wordlist}
    (hlen : wl.length = 2048)
    (hstr : ∀ x ∈ wl, ∃ s, x = JsEntry.str s) (hnd : wl.Nodup)
    {e : List Nat} :
    ((coderEncodeDigits sha e).map (lookupWord wl)).map (jsIndexOf wl)
      = coderEncodeDigits sha e := by
  rw [List.map_map]
  have hid : (coderEncodeDigits sha e).map (jsIndexOf wl ∘ lookupWord wl)
      = (coderEncodeDigits sha e).map id := by
    apply List.map_congr_left
    intro d hd
    have hdlt : d < wl.length := by
      rw [hlen]
      exact coderEncodeDigits_lt sha e d hd
    obtain ⟨s, hs⟩ := hstr _ (List.getElem_mem hdlt)
    simp only [Function.comp_apply, id_eq]
    rw [lookupWord_str hdlt hs, jsIndexOf_str hnd hdlt hs]
  rw [hid, List.map_id]

theorem exc_pure_bind {ε α β : Type} (a : α) (f : α → Except ε β) :
    ((pure a : Except ε α) >>= f) = f a := rfl

theorem entropyToMnemonic_eq {sha : List Nat → List Nat} {e : List Nat}
    {wl : Wordlist} (he : e.length ∈ validEntropyLengths)
    (hwl : validateWordlist wl = true)
    (hstr : ∀ x ∈ wl, ∃ s, x = JsEntry.str s) (hnd : wl.Nodup) :
    entropyToMnemonic sha e wl
      = .ok ((coderEncodeDigits sha e).flatMap le16Bytes) := by
  simp only [entropyToMnemonic, assertEntropy, he, if_true, exc_pure_bind,
    checkWordlist, hwl, eq_self_iff_true]
  rw [encode_index_id (validateWordlist_length hwl) hstr hnd]
  rfl

theorem alphabetDecode_lookup {wl : Wordlist} (hlen : wl.length = 2048)
    (hstr : ∀ x ∈ wl, ∃ s, x = JsEntry.str s) (hnd : wl.Nodup)
    {digits : List Nat} (hd : ∀ d ∈ digits, d < 2048) :
    alphabetDecode wl (digits.map (lookupWord wl)) = .ok digits := by
  have hstep : ∀ w ∈ digits.map (lookupWord wl),
      wordToIndex wl w = .ok (jsIndexOf wl w) := by
    intro w hw
    obtain ⟨d, hdmem, rfl⟩ := List.mem_map.mp hw
    have hdlt : d < wl.length := by
      rw [hlen]
      exact hd d hdmem
    obtain ⟨s, hs⟩ := hstr _ (List.getElem_mem hdlt)
    have hmem : JsEntry.str s ∈ wl := hs ▸ List.getElem_mem hdlt
    rw [lookupWord_str hdlt hs]
    simp only [wordToIndex, jsIndexOf]
    rw [if_pos hmem, if_pos hmem]
    rfl
  rw [alphabetDecode, mapM_ok_of hstep]
  congr 1
  rw [List.map_map]
  have hmapid : digits.map (jsIndexOf wl ∘ lookupWord wl) = digits.map id := by
    apply List.map_congr_left
    intro d hdmem
    have hdlt : d < wl.length := by
      rw [hlen]
      exact hd d hdmem
    obtain ⟨s, hs⟩ := hstr _ (List.getElem_mem hdlt)
    simp only [Function.comp_apply, id_eq]
    rw [lookupWord_str hdlt hs, jsIndexOf_str hnd hdlt hs]
  rw [hmapid, List.map_id]

theorem u16OfPair_le16 {d : Nat} (h : d < 65536) :
    u16OfPair (le16Bytes d) = d := by
  rw [le16Bytes, u16OfPair]
  have h1 : d % 256 % 256 = d % 256 := Nat.mod_mod_of_dvd _ (by norm_num)
  have h2 : d / 256 % 256 % 256 = d / 256 := by
    have : d / 256 < 256 := by omega
    rw [Nat.mod_mod_of_dvd _ (by norm_num), Nat.mod_eq_of_lt this]
  rw [h1, h2]
  omega

theorem bytesToU16_le16 {digits : List Nat} (hd : ∀ d ∈ digits, d < 65536) :
    bytesToU16 (digits.flatMap le16Bytes) = .ok digits := by
  rw [bytesToU16]
  have hlen : (digits.flatMap le16Bytes).length = 2 * digits.length :=
    length_flatMap_const (k := 2) (f := le16Bytes) (fun d => rfl) digits
  rw [if_pos (by rw [hlen]; omega)]
  rw [chunkList_flatMap (k := 2) (f := le16Bytes) (by norm_num) (fun d => rfl), List.map_map]
  have hmapid : digits.map (u16OfPair ∘ le16Bytes) = digits.map id := by
    apply List.map_congr_left
    intro d hdmem
    simp only [Function.comp_apply, id_eq]
    exact u16OfPair_le16 (hd d hdmem)
  rw [hmapid, List.map_id]
  rfl

theorem mnemonicToEntropy_bytes (sha : List Nat → List Nat)
    (nfkdFn : String → String) (bs : List Nat) (wl : Wordlist) :
    mnemonicToEntropy sha nfkdFn (.bytes bs) wl
      = decodeBytes sha wl bs >>= fun entropy =>
          assertEntropy entropy >>= fun _ => pure entropy := rfl

theorem mnemonicToEntropy_str (sha : List Nat → List Nat)
    (nfkdFn : String → String) (s : String) (wl : Wordlist) :
    mnemonicToEntropy sha nfkdFn (.str s) wl
      = decodeStr sha nfkdFn wl s >>= fun entropy =>
          assertEntropy entropy >>= fun _ => pure entropy := rfl

theorem decodeBytes_encode {sha : List Nat → List Nat} {e : List Nat}
    {wl : Wordlist} (he : e.length ∈ validEntropyLengths)
    (hb : ∀ b ∈ e, b < 256) (hwl : validateWordlist wl = true)
    (hstr : ∀ x ∈ wl, ∃ s, x = JsEntry.str s) (hnd : wl.Nodup) :
    decodeBytes sha wl ((coderEncodeDigits sha e).flatMap le16Bytes)
      = .ok e := by
  have hlen : e.length % 4 = 0 ∧ 4 ≤ e.length ∧ e.length ≤ 32 := by
    have := valid_length_cases he
    omega
  simp only [decodeBytes, checkWordlist, hwl, eq_self_iff_true, if_true,
    exc_pure_bind]
  rw [bytesToU16_le16 (fun d hdm => by
    have := coderEncodeDigits_lt sha e d hdm
    omega)]
  simp only [exc_bind_ok]
  rw [coderDecode, alphabetDecode_lookup (validateWordlist_length hwl) hstr
    hnd (coderEncodeDigits_lt sha e)]
  simp only [exc_bind_ok]
  rw [radixDecode_encodeDigits hlen.2.1 hlen.1 hlen.2.2 hb]
  simp only [exc_bind_ok]
  exact checksumDecode_append sha e

theorem mnemonicToEntropy_encode {sha : List Nat → List Nat}
    {nfkdFn : String → String} {e : List Nat} {wl : Wordlist}
    (he : e.length ∈ validEntropyLengths) (hb : ∀ b ∈ e, b < 256)
    (hwl : validateWordlist wl = true)
    (hstr : ∀ x ∈ wl, ∃ s, x = JsEntry.str s) (hnd : wl.Nodup) :
    mnemonicToEntropy sha nfkdFn
      (.bytes ((coderEncodeDigits sha e).flatMap le16Bytes)) wl = .ok e := by
  rw [mnemonicToEntropy_bytes, decodeBytes_encode he hb hwl hstr hnd]
  simp only [exc_bind_ok, assertEntropy, he, if_true, exc_pure_bind]
  rfl

/-! ### Checksum-mismatch path for a flipped checksum bit -/

theorem checksumDecode_append_ne {sha : List Nat → List Nat} {e : List Nat}
    {c : Nat} (h : c ≠ calcChecksum sha e) :
    checksumDecode sha (e ++ [c]) = .error .checksumMismatch := by
  simp [checksumDecode, List.getLast?_concat, List.dropLast_concat, h]
  rfl

theorem flipAt_ne {l : List Bool} {j : Nat} (hj : j < l.length) :
    flipAt j l ≠ l := by
  intro hc
  have h1 : (l.set j (! l.getD j false)).getD j false = ! l.getD j false := by
    have hlt : j < (l.set j (! l.getD j false)).length := by
      rw [List.length_set]
      exact hj
    rw [List.getD_eq_getElem _ _ hlt, List.getElem_set_self]
  have h2 := congrArg (fun xs => xs.getD j false) hc
  simp only [flipAt] at h2
  rw [h1] at h2
  simp at h2

theorem length_flipAt (j : Nat) (l : List Bool) :
    (flipAt j l).length = l.length := List.length_set l j _

theorem lookupWord_some {wl : Wordlist} {d : Nat} {s : String}
    (h : lookupWord wl d = some s) :
    ∃ hd : d < wl.length, wl[d] = JsEntry.str s := by
  rw [lookupWord] at h
  cases hg : wl.get? d with
  | none =>
    rw [hg] at h
    cases h
  | some entry =>
    rw [hg] at h
    obtain ⟨hlt, hget⟩ := List.get?_eq_some.mp hg
    rw [List.get_eq_getElem] at hget
    cases entry with
    | str s' =>
      simp only [] at h
      cases h
      exact ⟨hlt, hget⟩
    | nonString r => cases h
    | hole => cases h

theorem wordToIndex_lookup_ok {wl : Wordlist} (hnd : wl.Nodup) {d i : Nat}
    (h : wordToIndex wl (lookupWord wl d) = .ok i) : i = d := by
  cases hl : lookupWord wl d with
  | none =>
    rw [hl] at h
    cases h
  | some s =>
    rw [hl] at h
    obtain ⟨hlt, hget⟩ := lookupWord_some hl
    simp only [wordToIndex] at h
    split at h
    · cases h
      rw [← hget]
      exact indexOf_getElem_nodup hnd hlt
    · cases h

theorem alphabetDecode_ok_eq {wl : Wordlist} (hnd : wl.Nodup)
    {digits D : List Nat}
    (h : alphabetDecode wl (digits.map (lookupWord wl)) = .ok D) :
    D = digits := by
  rw [alphabetDecode] at h
  revert h
  suffices H : ∀ (ds D' : List Nat),
      List.mapM (wordToIndex wl) (ds.map (lookupWord wl)) = .ok D'
        → D' = ds from H digits D
  intro ds
  induction ds with
  | nil =>
    intro D' h
    rw [List.map_nil, List.mapM_nil] at h
    cases h
    rfl
  | cons d t ih =>
    intro D' h
    rw [List.map_cons, List.mapM_cons] at h
    obtain ⟨i, hi, h⟩ := exc_bind_ok_iff.mp h
    obtain ⟨is, his, h⟩ := exc_bind_ok_iff.mp h
    cases h
    rw [wordToIndex_lookup_ok hnd hi, ih is his]

theorem decodeBytes_flip_ne {sha : List Nat → List Nat} {e : List Nat}
    {wl : Wordlist} {j : Nat} (he : e.length ∈ validEntropyLengths)
    (hb : ∀ b ∈ e, b < 256) (hnd : wl.Nodup) (hj : j < e.length / 4) :
    ∀ a, decodeBytes sha wl
        (((chunkList 11 (flipChecksumBit sha e j)).map bitsToNat).flatMap
          le16Bytes)
      ≠ .ok a := by
  intro a h
  have hlen : e.length % 4 = 0 ∧ 4 ≤ e.length ∧ e.length ≤ 32 := by
    have := valid_length_cases he
    omega
  have htake : ((msbBits 8 (calcChecksum sha e)).take (e.length / 4)).length
      = e.length / 4 := by
    rw [List.length_take, length_msbBits]
    omega
  have hX : (flipAt j ((msbBits 8 (calcChecksum sha e)).take (e.length / 4))).length
      = e.length / 4 := by
    rw [length_flipAt, htake]
  rw [decodeBytes] at h
  obtain ⟨u, hu, h⟩ := exc_bind_ok_iff.mp h
  obtain ⟨idx, hidx, h⟩ := exc_bind_ok_iff.mp h
  rw [bytesToU16_le16 (fun d hdm => by
    have := digits_chunk11_lt _ d hdm
    omega)] at hidx
  cases hidx
  rw [coderDecode] at h
  obtain ⟨D, hD, h⟩ := exc_bind_ok_iff.mp h
  cases alphabetDecode_ok_eq hnd hD
  obtain ⟨bs0, hbs, h⟩ := exc_bind_ok_iff.mp h
  rw [flipChecksumBit] at hbs
  rw [radixDecode_chunk11 hlen.2.1 hlen.1 hlen.2.2 hb hX] at hbs
  cases hbs
  have hcsne : bitsToNat
      (flipAt j ((msbBits 8 (calcChecksum sha e)).take (e.length / 4))
        ++ List.replicate (8 - e.length / 4) false) ≠ calcChecksum sha e := by
    intro hc
    have hcs : bitsToNat ((msbBits 8 (calcChecksum sha e)).take (e.length / 4)
        ++ List.replicate (8 - e.length / 4) false) = calcChecksum sha e := by
      rw [← msbBits_calcChecksum hlen.1 hlen.2.2]
      have hlt : calcChecksum sha e < 2 ^ 8 := by
        have := calcChecksum_lt sha e
        norm_num
        omega
      exact bitsToNat_msbBits hlt
    have hll : (flipAt j ((msbBits 8 (calcChecksum sha e)).take (e.length / 4))
          ++ List.replicate (8 - e.length / 4) false).length
        = ((msbBits 8 (calcChecksum sha e)).take (e.length / 4)
          ++ List.replicate (8 - e.length / 4) false).length := by
      rw [List.length_append, List.length_append, hX, htake]
    have heq := bitsToNat_inj hll (hc.trans hcs.symm)
    have := List.append_cancel_right heq
    exact flipAt_ne (by rw [htake]; exact hj) this
  rw [checksumDecode_append_ne hcsne] at h
  cases h

/-! ### Facts recovered from a successful decode -/

theorem assertEntropy_ok {e : List Nat} {u : Unit}
    (h : assertEntropy e = .ok u) : e.length ∈ validEntropyLengths := by
  rw [assertEntropy] at h
  by_contra hc
  rw [if_neg hc] at h
  cases h

theorem checkWordlist_ok {wl : Wordlist} {u : Unit}
    (h : checkWordlist wl = .ok u) : validateWordlist wl = true := by
  rw [checkWordlist] at h
  by_contra hc
  rw [if_neg (by simpa using hc)] at h
  cases h

theorem radixDecode_ok_bytes {digits bs : List Nat}
    (h : radixDecode digits = .ok bs) : ∀ b ∈ bs, b < 256 := by
  rw [radixDecode] at h
  split at h
  · cases h with
    | refl =>
      intro b hbm
      obtain ⟨c, hc, rfl⟩ := List.mem_map.mp hbm
      calc bitsToNat c < 2 ^ c.length := bitsToNat_lt c
        _ ≤ 2 ^ 8 :=
          Nat.pow_le_pow_right (by norm_num)
            (chunkList_mem_length_le (by norm_num) _ c hc)
        _ = 256 := by norm_num
  · cases h

theorem checksumDecode_ok_dropLast {sha : List Nat → List Nat}
    {data p : List Nat} (h : checksumDecode sha data = .ok p) :
    p = data.dropLast := by
  rw [checksumDecode] at h
  split at h
  · cases h
  · split at h
    · cases h with
      | refl => rfl
    · cases h

theorem coderDecode_ok_bytes {sha : List Nat → List Nat} {wl : Wordlist}
    {ws : List (Option String)} {e : List Nat}
    (h : coderDecode sha wl ws = .ok e) : ∀ b ∈ e, b < 256 := by
  rw [coderDecode] at h
  obtain ⟨digits, hdig, h⟩ := exc_bind_ok_iff.mp h
  obtain ⟨bs, hbs, h⟩ := exc_bind_ok_iff.mp h
  have hsub := checksumDecode_ok_dropLast h
  intro b hbm
  exact radixDecode_ok_bytes hbs b
    (List.dropLast_sublist bs |>.subset (hsub ▸ hbm))

theorem mnemonicToEntropy_ok_elim {sha : List Nat → List Nat}
    {nfkdFn : String → String} {m : Mnemonic} {wl : Wordlist} {e : List Nat}
    (h : mnemonicToEntropy sha nfkdFn m wl = .ok e) :
    validateWordlist wl = true ∧ e.length ∈ validEntropyLengths
      ∧ ∀ b ∈ e, b < 256 := by
  cases m with
  | str s =>
    rw [mnemonicToEntropy_str] at h
    obtain ⟨a, ha, h⟩ := exc_bind_ok_iff.mp h
    obtain ⟨u, hu, h⟩ := exc_bind_ok_iff.mp h
    cases h with
    | refl =>
      rw [decodeStr] at ha
      obtain ⟨n, hn, ha⟩ := exc_bind_ok_iff.mp ha
      obtain ⟨u', hu', ha⟩ := exc_bind_ok_iff.mp ha
      exact ⟨checkWordlist_ok hu', assertEntropy_ok hu, coderDecode_ok_bytes ha⟩
  | bytes bs =>
    rw [mnemonicToEntropy_bytes] at h
    obtain ⟨a, ha, h⟩ := exc_bind_ok_iff.mp h
    obtain ⟨u, hu, h⟩ := exc_bind_ok_iff.mp h
    cases h with
    | refl =>
      rw [decodeBytes] at ha
      obtain ⟨u', hu', ha⟩ := exc_bind_ok_iff.mp ha
      obtain ⟨idx, hidx, ha⟩ := exc_bind_ok_iff.mp ha
      exact ⟨checkWordlist_ok hu', assertEntropy_ok hu, coderDecode_ok_bytes ha⟩

/-! ### Which failure kind each stage can produce -/

theorem normalize_error {nfkdFn : String → String} {s : String}
    {c : Bip39Error} (h : normalize nfkdFn s = .error c) :
    c = .invalidWordCount
      ∧ (splitSpace (nfkdFn s)).length ∉ ([12, 15, 18, 21, 24] : List Nat) := by
  rw [normalize] at h
  split at h
  · cases h
  · cases h
    exact ⟨rfl, by assumption⟩

theorem normalize_ok_of {nfkdFn : String → String} {s : String}
    (hc : (splitSpace (nfkdFn s)).length ∈ ([12, 15, 18, 21, 24] : List Nat)) :
    normalize nfkdFn s = .ok (nfkdFn s, splitSpace (nfkdFn s)) := by
  rw [normalize, if_pos hc]
  rfl

theorem wordToIndex_error {wl : Wordlist} {w : Option String} {c : Bip39Error}
    (h : wordToIndex wl w = .error c) : c = .unknownWord := by
  cases w with
  | none => cases h; rfl
  | some s =>
    simp only [wordToIndex] at h
    split at h
    · cases h
    · cases h
      rfl

theorem alphabetDecode_error {wl : Wordlist} {ws : List (Option String)}
    {c : Bip39Error} (h : alphabetDecode wl ws = .error c) :
    c = .unknownWord := by
  obtain ⟨a, _, hfa⟩ := mapM_error_mem h
  exact wordToIndex_error hfa

theorem radixDecode_error {digits : List Nat} {c : Bip39Error}
    (h : radixDecode digits = .error c) : c = .digitOutOfRange := by
  rw [radixDecode] at h
  split at h
  · cases h
  · cases h
    rfl

theorem checksumDecode_error {sha : List Nat → List Nat} {data : List Nat}
    {c : Bip39Error} (h : checksumDecode sha data = .error c) :
    c = .checksumMismatch := by
  rw [checksumDecode] at h
  split at h
  · cases h
    rfl
  · split at h
    · cases h
    · cases h
      rfl

theorem coderDecode_error {sha : List Nat → List Nat} {wl : Wordlist}
    {ws : List (Option String)} {c : Bip39Error}
    (h : coderDecode sha wl ws = .error c) :
    c = .unknownWord ∨ c = .digitOutOfRange ∨ c = .checksumMismatch := by
  rw [coderDecode] at h
  rcases exc_bind_error_iff.mp h with h | ⟨a, _, h⟩
  · exact Or.inl (alphabetDecode_error h)
  · rcases exc_bind_error_iff.mp h with h | ⟨b, _, h⟩
    · exact Or.inr (Or.inl (radixDecode_error h))
    · exact Or.inr (Or.inr (checksumDecode_error h))

theorem assertEntropy_error {e : List Nat} {c : Bip39Error}
    (h : assertEntropy e = .error c) :
    c = .invalidEntropyLength ∧ e.length ∉ validEntropyLengths := by
  rw [assertEntropy] at h
  split at h
  · cases h
  · cases h
    exact ⟨rfl, by assumption⟩

theorem checkWordlist_error {wl : Wordlist} {c : Bip39Error}
    (h : checkWordlist wl = .error c) :
    c = .invalidWordlist ∧ validateWordlist wl = false := by
  rw [checkWordlist] at h
  split at h
  · cases h
  · cases h
    exact ⟨rfl, by simp_all⟩

theorem bytesToU16_error {bs : List Nat} {c : Bip39Error}
    (h : bytesToU16 bs = .error c) :
    c = .oddBinaryLength ∧ bs.length % 2 ≠ 0 := by
  rw [bytesToU16] at h
  split at h
  · cases h
  · cases h
    exact ⟨rfl, by assumption⟩

theorem validateMnemonic_iff_ok {sha : List Nat → List Nat}
    {nfkdFn : String → String} {m : Mnemonic} {wl : Wordlist} :
    validateMnemonic sha nfkdFn m wl = true
      ↔ ∃ e, mnemonicToEntropy sha nfkdFn m wl = .ok e := by
  rw [validateMnemonic]
  cases hx : mnemonicToEntropy sha nfkdFn m wl with
  | ok e => simp
  | error c => simp

theorem bytesToU16_ok {bs idx : List Nat} (h : bytesToU16 bs = .ok idx) :
    bs.length % 2 = 0 := by
  rw [bytesToU16] at h
  split at h
  · assumption
  · cases h

/-! ### Unfolding equations for the seed derivation -/

theorem encodeSeed_str (nfkdFn : String → String) (s : String) (wl : Wordlist) :
    encodeMnemonicForSeedDerivation nfkdFn (.str s) wl
      = normalize nfkdFn s >>= fun n => pure (utf8 n.1) := rfl

theorem encodeSeed_bytes (nfkdFn : String → String) (bs : List Nat)
    (wl : Wordlist) :
    encodeMnemonicForSeedDerivation nfkdFn (.bytes bs) wl
      = bytesToU16 bs >>= fun idx =>
          pure (utf8 (joinSpace
            (idx.map (fun i => (wl.get? i |>.getD .hole).joinText))))
  := rfl

theorem entropyToMnemonic_ok_raw {sha : List Nat → List Nat} {e : List Nat}
    {wl : Wordlist} (he : e.length ∈ validEntropyLengths)
    (hwl : validateWordlist wl = true) :
    entropyToMnemonic sha e wl
      = .ok ((((coderEncodeDigits sha e).map (lookupWord wl)).map
          (jsIndexOf wl)).flatMap le16Bytes) := by
  simp only [entropyToMnemonic, assertEntropy, he, if_true, exc_pure_bind,
    checkWordlist, hwl, eq_self_iff_true]
  rfl

theorem entropyToMnemonic_wlFail {sha : List Nat → List Nat} {e : List Nat}
    {wl : Wordlist} (he : e.length ∈ validEntropyLengths)
    (hv : validateWordlist wl = false) :
    entropyToMnemonic sha e wl = .error .invalidWordlist := by
  simp only [entropyToMnemonic, assertEntropy, he, if_true, exc_pure_bind,
    checkWordlist, hv, Bool.false_eq_true, if_false, exc_bind_error]
  rfl

theorem mnemonicToEntropy_str_wlFail {sha : List Nat → List Nat}
    {nfkdFn : String → String} {s : String} {wl : Wordlist}
    (hc : (splitSpace (nfkdFn s)).length ∈ ([12, 15, 18, 21, 24] : List Nat))
    (hv : validateWordlist wl = false) :
    mnemonicToEntropy sha nfkdFn (.str s) wl = .error .invalidWordlist := by
  rw [mnemonicToEntropy_str, decodeStr, normalize_ok_of hc]
  simp only [exc_bind_ok, checkWordlist, hv, Bool.false_eq_true, if_false,
    exc_bind_error]
  rfl

/-! ### Concrete instances used to exercise the theorems -/

/-- A fixed stand-in for the external 256-bit hash: the all-zero digest. -/
def shaW : List Nat → List Nat := fun _ => List.replicate 32 0

/-- A concrete valid wordlist: entry `i` is the string of `i + 1` letters a,
so all 2048 entries are distinct non-empty strings. -/
def wlW : Wordlist :=
  (List.range 2048).map
    (fun i => JsEntry.str (String.mk (List.replicate (i + 1) 'a')))

theorem wlW_length : wlW.length = 2048 := by
  simp [wlW]

theorem wlW_entries : ∀ x ∈ wlW, ∃ s, x = JsEntry.str s ∧ s ≠ "" := by
  intro x hx
  obtain ⟨i, _, rfl⟩ := List.mem_map.mp hx
  refine ⟨_, rfl, ?_⟩
  intro hcon
  have hdata := congrArg String.data hcon
  simp at hdata

theorem wlW_strings : ∀ x ∈ wlW, ∃ s, x = JsEntry.str s := by
  intro x hx
  obtain ⟨s, hs, _⟩ := wlW_entries x hx
  exact ⟨s, hs⟩

theorem wlW_valid : validateWordlist wlW = true :=
  validateWordlist_of_strings wlW_length wlW_strings

theorem wlW_nodup : wlW.Nodup := by
  refine List.Nodup.map ?_ (List.nodup_range 2048)
  intro i j hij
  have hlen := congrArg
    (fun x => match x with
      | JsEntry.str s => s.data.length
      | _ => 0) hij
  simp at hlen
  omega

/-! ### The claims -/

/-- Claim C1: for every entropy byte sequence whose length is in
{16, 20, 24, 28, 32} and every wordlist of exactly 2048 unique non-empty
strings, `mnemonicToEntropy (entropyToMnemonic e wordlist) wordlist`
returns a byte sequence equal to `e`. -/
theorem c1_roundtrip {sha : List Nat → List Nat} {nfkdFn : String → String}
    {e : List Nat} {wl : Wordlist}
    (he : e.length ∈ validEntropyLengths) (hb : ∀ b ∈ e, b < 256)
    (hw : wl.length = 2048) (hne : ∀ x ∈ wl, ∃ s, x = JsEntry.str s ∧ s ≠ "")
    (hnd : wl.Nodup) :
    (entropyToMnemonic sha e wl >>= fun m =>
      mnemonicToEntropy sha nfkdFn (.bytes m) wl) = .ok e := by
  have hstr : ∀ x ∈ wl, ∃ s, x = JsEntry.str s := by
    intro x hx
    obtain ⟨s, hs, _⟩ := hne x hx
    exact ⟨s, hs⟩
  have hwl : validateWordlist wl = true := validateWordlist_of_strings hw hstr
  rw [entropyToMnemonic_eq he hwl hstr hnd, exc_bind_ok,
    mnemonicToEntropy_encode he hb hwl hstr hnd]

/-- Witness for C1 at 16 zero bytes over the concrete wordlist `wlW`. -/
theorem c1_roundtrip_witness :
    (List.replicate 16 (0 : Nat)).length ∈ validEntropyLengths
    ∧ (entropyToMnemonic shaW (List.replicate 16 0) wlW >>= fun m =>
        mnemonicToEntropy shaW (fun s => s) (.bytes m) wlW)
      = .ok (List.replicate 16 0) :=
  ⟨by decide,
    c1_roundtrip (by decide) (by decide) wlW_length wlW_entries wlW_nodup⟩

/-- Claim C2: for every string mnemonic whose NFKD-normalized form splits
into a valid word count and every passphrase, `mnemonicToSeedSync` returns
exactly the 64-byte KDF output with password the UTF-8 bytes of the
NFKD-normalized mnemonic and salt the UTF-8 bytes of "mnemonic" followed by
the NFKD-normalized passphrase, iteration count 2048, output length 64.
The hypothesis `hsalt` carries the Unicode fact that NFKD distributes over
the concatenation after the ASCII starter run "mnemonic" (the source
normalizes the concatenation, the spec normalizes the passphrase alone);
`hkdf` carries the PBKDF2 output-length contract. -/
theorem c2_seed_sync
    {kdf : (List Nat → List Nat) → List Nat → List Nat → Nat → Nat → List Nat}
    {prf : List Nat → List Nat} {nfkdFn : String → String} {m pp : String}
    {wl : Wordlist}
    (hc : (splitSpace (nfkdFn m)).length ∈ ([12, 15, 18, 21, 24] : List Nat))
    (hsalt : nfkdFn ("mnemonic" ++ pp) = "mnemonic" ++ nfkdFn pp)
    (hkdf : ∀ h p s c d, (kdf h p s c d).length = d) :
    mnemonicToSeedSync kdf prf nfkdFn (.str m) wl pp
      = .ok (specSeed kdf prf nfkdFn m pp)
    ∧ (specSeed kdf prf nfkdFn m pp).length = 64 := by
  constructor
  · rw [mnemonicToSeedSync, encodeSeed_str, normalize_ok_of hc]
    simp only [exc_bind_ok, exc_pure_bind]
    rw [specSeed, salt, hsalt]
    rfl
  · exact hkdf _ _ _ _ _

set_option maxHeartbeats 1000000 in
/-- Witness for C2 at a 12-word phrase with the identity normalizer and a
KDF stub that returns `dkLen` zero bytes. -/
theorem c2_seed_sync_witness :
    (splitSpace ((fun s => s) "a a a a a a a a a a a a")).length
        ∈ ([12, 15, 18, 21, 24] : List Nat)
    ∧ mnemonicToSeedSync (fun _ _ _ _ d => List.replicate d 0) (fun _ => [])
        (fun s => s) (.str "a a a a a a a a a a a a") [] "x"
      = .ok (specSeed (fun _ _ _ _ d => List.replicate d 0) (fun _ => [])
          (fun s => s) "a a a a a a a a a a a a" "x") :=
  ⟨by decide,
    (@c2_seed_sync (fun _ _ _ _ d => List.replicate d 0) (fun _ => [])
      (fun s => s) "a a a a a a a a a a a a" "x" [] (by decide) rfl
      (fun _ _ _ _ d => List.length_replicate d 0)).1⟩

/-- Claim C3: for every entropy of valid length, the checksum byte is
`(sha256(entropy)[0] >> (8 - L/4)) << (8 - L/4)`: the top `L/4` bits of the
first digest byte with the remaining low bits zeroed. -/
theorem c3_checksum {sha : List Nat → List Nat} {e : List Nat}
    (he : e.length ∈ validEntropyLengths) (hd : (sha e).headD 0 < 256) :
    calcChecksum sha e
        = ((sha e).headD 0 >>> (8 - e.length / 4)) <<< (8 - e.length / 4)
    ∧ calcChecksum sha e % 2 ^ (8 - e.length / 4) = 0
    ∧ calcChecksum sha e / 2 ^ (8 - e.length / 4)
        = (sha e).headD 0 / 2 ^ (8 - e.length / 4) := by
  have hs : (32 - e.length) / 4 = 8 - e.length / 4 := by
    have := valid_length_cases he
    omega
  have hmod : (sha e).headD 0 % 256 = (sha e).headD 0 := Nat.mod_eq_of_lt hd
  refine ⟨?_, ?_, ?_⟩
  · simp only [calcChecksum]
    rw [hs, hmod]
  · simp only [calcChecksum]
    rw [hs, Nat.shiftLeft_eq]
    exact Nat.mul_mod_left _ _
  · simp only [calcChecksum]
    rw [hs, hmod, Nat.shiftLeft_eq, Nat.shiftRight_eq_div_pow]
    exact Nat.mul_div_cancel _ (Nat.pos_pow_of_pos _ (by norm_num))

/-- Witness for C3 at 16 zero bytes and a digest whose first byte is 0xbd
(the spec's worked example: 10111101 -> 10110000). -/
theorem c3_checksum_witness :
    (List.replicate 16 (0 : Nat)).length ∈ validEntropyLengths
    ∧ calcChecksum (fun _ => 0xbd :: List.replicate 31 0)
        (List.replicate 16 0) = 0xb0 := by
  refine ⟨by decide, ?_⟩
  have h := (@c3_checksum (fun _ => 0xbd :: List.replicate 31 0)
    (List.replicate 16 0) (by decide) (by decide)).1
  rw [h]
  decide

/-- Counterexample to C4 as stated: a table of 2048 empty strings violates
the claim's "non-empty" requirement, yet `entropyToMnemonic` does not fail
with the invalid-wordlist error - the source only checks length and
string-ness, so the encode succeeds. -/
theorem c4_counterexample :
    entropyToMnemonic shaW (List.replicate 16 0)
        (List.replicate 2048 (JsEntry.str "")) = .ok (List.replicate 24 0)
    ∧ JsEntry.str "" ∈ (List.replicate 2048 (JsEntry.str "") : Wordlist) := by
  have hwl0 : validateWordlist (List.replicate 2048 (JsEntry.str "")) = true := by
    refine validateWordlist_of_strings (List.length_replicate 2048 _) ?_
    intro x hx
    exact ⟨"", List.eq_of_mem_replicate hx⟩
  constructor
  · rw [entropyToMnemonic_ok_raw (by decide) hwl0]
    have hdig : coderEncodeDigits shaW (List.replicate 16 0)
        = List.replicate 12 0 := by decide
    rw [hdig]
    decide
  · exact List.mem_replicate.mpr ⟨by norm_num, rfl⟩

/-- Claim C4 (amended): with the other input passing its preliminary
validation (a valid entropy length, a valid word count), `entropyToMnemonic`
and `mnemonicToEntropy` fail with the invalid-wordlist error, before any
bit-level work, if and only if the wordlist is not a table of exactly 2048
slots whose slot 0 holds a string and whose present elements are all
strings.  Entries are not required to be non-empty (the source does not
check emptiness), and a hole at an index >= 1 is not rejected (the
source's per-element check is a `forEach`, which skips holes; only slot 0
is read directly). -/
theorem c4_wordlist_validation {sha : List Nat → List Nat}
    {nfkdFn : String → String} {e : List Nat} {s : String} {wl : Wordlist}
    (he : e.length ∈ validEntropyLengths)
    (hc : (splitSpace (nfkdFn s)).length ∈ ([12, 15, 18, 21, 24] : List Nat)) :
    ((entropyToMnemonic sha e wl = .error .invalidWordlist)
       ↔ ¬ (wl.length = 2048 ∧ (wl.headD .hole).isStr = true
            ∧ ∀ x ∈ wl, x.isPresent = true → x.isStr = true))
    ∧ ((mnemonicToEntropy sha nfkdFn (.str s) wl = .error .invalidWordlist)
       ↔ ¬ (wl.length = 2048 ∧ (wl.headD .hole).isStr = true
            ∧ ∀ x ∈ wl, x.isPresent = true → x.isStr = true)) := by
  cases hb : validateWordlist wl with
  | true =>
    have hcond := validateWordlist_iff.mp hb
    constructor
    · constructor
      · intro h
        rw [entropyToMnemonic_ok_raw he hb] at h
        cases h
      · intro hcon
        exact absurd hcond hcon
    · constructor
      · intro h
        exfalso
        rw [mnemonicToEntropy_str] at h
        rcases exc_bind_error_iff.mp h with h | ⟨a, ha, h⟩
        · rw [decodeStr] at h
          rcases exc_bind_error_iff.mp h with h | ⟨n, hn, h⟩
          · exact Bip39Error.noConfusion (normalize_error h).1
          · rcases exc_bind_error_iff.mp h with h | ⟨u, hu, h⟩
            · have hfalse := (checkWordlist_error h).2
              rw [hb] at hfalse
              cases hfalse
            · rcases coderDecode_error h with h1 | h1 | h1 <;>
                exact Bip39Error.noConfusion h1
        · rcases exc_bind_error_iff.mp h with h | ⟨u, hu, h⟩
          · exact Bip39Error.noConfusion (assertEntropy_error h).1
          · exact Except.noConfusion h
      · intro hcon
        exact absurd hcond hcon
  | false =>
    have hcond : ¬ (wl.length = 2048 ∧ (wl.headD .hole).isStr = true
        ∧ ∀ x ∈ wl, x.isPresent = true → x.isStr = true) := by
      intro hcc
      rw [validateWordlist_iff.mpr hcc] at hb
      cases hb
    exact ⟨⟨fun _ => hcond, fun _ => entropyToMnemonic_wlFail he hb⟩,
      ⟨fun _ => hcond, fun _ => mnemonicToEntropy_str_wlFail hc hb⟩⟩

set_option maxHeartbeats 1000000 in
/-- Witness for the amended C4: a 2047-entry wordlist makes both operations
fail with the invalid-wordlist error, while a 2048-slot wordlist with a
hole at index 1 (strings everywhere else) is not rejected, exhibiting the
skipped per-element check on holes. -/
theorem c4_wordlist_validation_witness :
    (entropyToMnemonic shaW (List.replicate 16 0)
        (List.replicate 2047 (JsEntry.str "a")) = .error .invalidWordlist)
    ∧ (mnemonicToEntropy shaW (fun s => s) (.str "a a a a a a a a a a a a")
        (List.replicate 2047 (JsEntry.str "a")) = .error .invalidWordlist)
    ∧ ¬ (entropyToMnemonic shaW (List.replicate 16 0)
        (JsEntry.str "a" :: JsEntry.hole
          :: List.replicate 2046 (JsEntry.str "a"))
      = .error .invalidWordlist) := by
  have h := @c4_wordlist_validation shaW (fun s => s) (List.replicate 16 0)
    "a a a a a a a a a a a a" (List.replicate 2047 (JsEntry.str "a"))
    (by decide) (by decide)
  have h2 := @c4_wordlist_validation shaW (fun s => s) (List.replicate 16 0)
    "a a a a a a a a a a a a"
    (JsEntry.str "a" :: JsEntry.hole :: List.replicate 2046 (JsEntry.str "a"))
    (by decide) (by decide)
  refine ⟨h.1.mpr ?_, h.2.mpr ?_, ?_⟩
  · intro hcc
    have hl := hcc.1
    rw [List.length_replicate] at hl
    exact absurd hl (by norm_num)
  · intro hcc
    have hl := hcc.1
    rw [List.length_replicate] at hl
    exact absurd hl (by norm_num)
  · intro herr
    refine (h2.1.mp herr) ⟨?_, rfl, ?_⟩
    · rw [List.length_cons, List.length_cons, List.length_replicate]
    · intro x hx hp
      rcases List.mem_cons.mp hx with hx | hx
      · rw [hx]
        rfl
      rcases List.mem_cons.mp hx with hx | hx
      · rw [hx] at hp
        exact absurd hp (by decide)
      · rw [List.eq_of_mem_replicate hx]
        rfl

/-- Claim C5: `validateMnemonic` returns true exactly when
`mnemonicToEntropy` succeeds, and returns false (rather than propagating)
on every failure of `mnemonicToEntropy`. -/
theorem c5_validate_boolean {sha : List Nat → List Nat}
    {nfkdFn : String → String} {m : Mnemonic} {wl : Wordlist} :
    (validateMnemonic sha nfkdFn m wl = true
      ↔ ∃ e, mnemonicToEntropy sha nfkdFn m wl = .ok e)
    ∧ ∀ c, mnemonicToEntropy sha nfkdFn m wl = .error c
        → validateMnemonic sha nfkdFn m wl = false := by
  refine ⟨validateMnemonic_iff_ok, ?_⟩
  intro c hc
  rw [validateMnemonic, hc]

/-- Claim C6: the non-blocking `mnemonicToSeed` and the blocking
`mnemonicToSeedSync` produce identical results on every input, and any
produced seed has exactly 64 bytes.  The hypothesis `hEq` carries the
dependency contract that `pbkdf2Async` computes the same function as
`pbkdf2`; determinism of repeated calls is definitional in this pure
embedding. -/
theorem c6_async_sync_agree
    {kdfA kdfS : (List Nat → List Nat) → List Nat → List Nat → Nat → Nat → List Nat}
    {prf : List Nat → List Nat} {nfkdFn : String → String} {m : Mnemonic}
    {wl : Wordlist} {pp : String}
    (hEq : ∀ h p s c d, kdfA h p s c d = kdfS h p s c d)
    (hkdf : ∀ h p s c d, (kdfS h p s c d).length = d) :
    mnemonicToSeed kdfA prf nfkdFn m wl pp
        = mnemonicToSeedSync kdfS prf nfkdFn m wl pp
    ∧ ∀ out, mnemonicToSeedSync kdfS prf nfkdFn m wl pp = .ok out
        → out.length = 64 := by
  constructor
  · rw [mnemonicToSeed, mnemonicToSeedSync]
    cases henc : encodeMnemonicForSeedDerivation nfkdFn m wl with
    | error c => rw [exc_bind_error, exc_bind_error]
    | ok p => rw [exc_bind_ok, exc_bind_ok, hEq]
  · intro out hout
    rw [mnemonicToSeedSync] at hout
    obtain ⟨p, hp, hout⟩ := exc_bind_ok_iff.mp hout
    cases hout
    exact hkdf _ _ _ _ _

/-- Witness for C6 at an empty binary mnemonic with two KDF stubs that are
extensionally equal. -/
theorem c6_async_sync_agree_witness :
    mnemonicToSeed (fun _ _ _ _ d => List.replicate d 0) (fun _ => [])
        (fun s => s) (.bytes []) [] ""
      = mnemonicToSeedSync (fun _ _ _ _ d => List.replicate d 0) (fun _ => [])
        (fun s => s) (.bytes []) [] "" :=
  (@c6_async_sync_agree (fun _ _ _ _ d => List.replicate d 0)
    (fun _ _ _ _ d => List.replicate d 0) (fun _ => []) (fun s => s)
    (.bytes []) [] "" (fun _ _ _ _ _ => rfl)
    (fun _ _ _ _ d => List.length_replicate d 0)).1

/-- Claim C7: for every valid mnemonic (one that `mnemonicToEntropy`
decodes to entropy `e`) over a valid wordlist with unique entries, flipping
any single bit of the checksum region of the packed (entropy ‖ checksum)
representation yields a phrase `validateMnemonic` rejects.
`flipChecksumBit sha e j` is the packed bit string with bit
`8 * e.length + j` flipped, and the phrase is its 11-bit groups serialized
in the library's binary mnemonic form. -/
theorem c7_checksum_flip {sha : List Nat → List Nat}
    {nfkdFn : String → String} {m : Mnemonic} {wl : Wordlist} {e : List Nat}
    {j : Nat} (h : mnemonicToEntropy sha nfkdFn m wl = .ok e)
    (hnd : wl.Nodup) (hj : j < e.length / 4) :
    validateMnemonic sha nfkdFn
      (.bytes (((chunkList 11 (flipChecksumBit sha e j)).map
        bitsToNat).flatMap le16Bytes)) wl = false := by
  obtain ⟨hwl, he, hb⟩ := mnemonicToEntropy_ok_elim h
  rw [validateMnemonic]
  cases hx : mnemonicToEntropy sha nfkdFn
      (.bytes (((chunkList 11 (flipChecksumBit sha e j)).map
        bitsToNat).flatMap le16Bytes)) wl with
  | error c => rfl
  | ok e' =>
    exfalso
    rw [mnemonicToEntropy_bytes] at hx
    obtain ⟨a, ha, _⟩ := exc_bind_ok_iff.mp hx
    exact decodeBytes_flip_ne he hb hnd hj a ha

/-- Witness for C7: the all-zero 16-byte entropy encodes to a valid phrase
over `wlW`, and flipping checksum bit 0 makes validation fail. -/
theorem c7_checksum_flip_witness :
    0 < (List.replicate 16 (0 : Nat)).length / 4
    ∧ validateMnemonic shaW (fun s => s)
        (.bytes (((chunkList 11 (flipChecksumBit shaW (List.replicate 16 0)
          0)).map bitsToNat).flatMap le16Bytes)) wlW = false :=
  ⟨by decide,
    c7_checksum_flip
      (mnemonicToEntropy_encode (by decide) (by decide) wlW_valid
        wlW_strings wlW_nodup)
      wlW_nodup (by decide)⟩

/-- Claim C8: on a string mnemonic, `mnemonicToEntropy` normalizes with
NFKD, splits the normalized string on single spaces, and fails with the
invalid-word-count error exactly when the resulting word count is not in
{12, 15, 18, 21, 24}. -/
theorem c8_wordcount_error {sha : List Nat → List Nat}
    {nfkdFn : String → String} {wl : Wordlist} {s : String} :
    mnemonicToEntropy sha nfkdFn (.str s) wl = .error .invalidWordCount
      ↔ (splitSpace (nfkdFn s)).length ∉ ([12, 15, 18, 21, 24] : List Nat) := by
  constructor
  · intro h hc
    rw [mnemonicToEntropy_str] at h
    rcases exc_bind_error_iff.mp h with h | ⟨a, ha, h⟩
    · rw [decodeStr] at h
      rcases exc_bind_error_iff.mp h with h | ⟨n, hn, h⟩
      · rw [normalize_ok_of hc] at h
        cases h
      · rcases exc_bind_error_iff.mp h with h | ⟨u, hu, h⟩
        · exact Bip39Error.noConfusion (checkWordlist_error h).1
        · rcases coderDecode_error h with h1 | h1 | h1 <;>
            exact Bip39Error.noConfusion h1
    · rcases exc_bind_error_iff.mp h with h | ⟨u, hu, h⟩
      · exact Bip39Error.noConfusion (assertEntropy_error h).1
      · exact Except.noConfusion h
  · intro hcnt
    rw [mnemonicToEntropy_str, decodeStr]
    have hnorm : normalize nfkdFn s = .error .invalidWordCount := by
      rw [normalize, if_neg hcnt]
      rfl
    rw [hnorm, exc_bind_error, exc_bind_error]

/-- Claim C9: on a binary mnemonic of even byte length, both
`mnemonicToSeed` and `mnemonicToSeedSync` derive the seed password as the
UTF-8 bytes of the wordlist slots at the 16-bit indices joined by single
spaces - the join printing `""` for an absent (out-of-range) slot - with
no NFKD applied to the joined string and no word-count or index-range
validation, and each produces a 64-byte seed.  `kdfAsync` is the external
`pbkdf2Async` with the same output-length contract. -/
theorem c9_binary_seed
    {kdfAsync kdf : (List Nat → List Nat) → List Nat → List Nat → Nat → Nat → List Nat}
    {prf : List Nat → List Nat} {nfkdFn : String → String} {wl : Wordlist}
    {pp : String} {bs : List Nat} (hev : bs.length % 2 = 0)
    (hkdf : ∀ h p s c d, (kdf h p s c d).length = d)
    (hkdfA : ∀ h p s c d, (kdfAsync h p s c d).length = d) :
    mnemonicToSeedSync kdf prf nfkdFn (.bytes bs) wl pp
      = .ok (kdf prf
          (utf8 (joinSpace (((chunkList 2 bs).map u16OfPair).map
            (fun i => (wl.get? i |>.getD .hole).joinText))))
          (utf8 (nfkdFn ("mnemonic" ++ pp))) 2048 64)
    ∧ mnemonicToSeed kdfAsync prf nfkdFn (.bytes bs) wl pp
      = .ok (kdfAsync prf
          (utf8 (joinSpace (((chunkList 2 bs).map u16OfPair).map
            (fun i => (wl.get? i |>.getD .hole).joinText))))
          (utf8 (nfkdFn ("mnemonic" ++ pp))) 2048 64)
    ∧ (∀ out, mnemonicToSeedSync kdf prf nfkdFn (.bytes bs) wl pp = .ok out
        → out.length = 64)
    ∧ (∀ out, mnemonicToSeed kdfAsync prf nfkdFn (.bytes bs) wl pp = .ok out
        → out.length = 64) := by
  refine ⟨?_, ?_, ?_, ?_⟩
  · rw [mnemonicToSeedSync, encodeSeed_bytes, bytesToU16, if_pos hev,
      exc_pure_bind, exc_pure_bind]
    rfl
  · rw [mnemonicToSeed, encodeSeed_bytes, bytesToU16, if_pos hev,
      exc_pure_bind, exc_pure_bind]
    rfl
  · intro out hout
    rw [mnemonicToSeedSync] at hout
    obtain ⟨p, hp, hout⟩ := exc_bind_ok_iff.mp hout
    cases hout
    exact hkdf _ _ _ _ _
  · intro out hout
    rw [mnemonicToSeed] at hout
    obtain ⟨p, hp, hout⟩ := exc_bind_ok_iff.mp hout
    cases hout
    exact hkdfA _ _ _ _ _

/-- Witness for C9 at the two-byte binary mnemonic [0, 8], whose single
16-bit index is 2048 - beyond any 2048-entry wordlist - over the empty
wordlist: both entry points still produce the seed, from the empty-string
join. -/
theorem c9_binary_seed_witness :
    ([0, 8] : List Nat).length % 2 = 0
    ∧ mnemonicToSeedSync (fun _ _ _ _ d => List.replicate d 0) (fun _ => [])
        (fun s => s) (.bytes [0, 8]) [] ""
      = .ok (List.replicate 64 0)
    ∧ mnemonicToSeed (fun _ _ _ _ d => List.replicate d 0) (fun _ => [])
        (fun s => s) (.bytes [0, 8]) [] ""
      = .ok (List.replicate 64 0) := by
  have h := @c9_binary_seed (fun _ _ _ _ d => List.replicate d 0)
    (fun _ _ _ _ d => List.replicate d 0)
    (fun _ => []) (fun s => s) [] "" [0, 8] (by decide)
    (fun _ _ _ _ d => List.length_replicate d 0)
    (fun _ _ _ _ d => List.length_replicate d 0)
  refine ⟨by decide, ?_, ?_⟩
  · rw [h.1]
  · rw [h.2.1]

/-- Claim C10: a binary mnemonic of odd byte length makes the 16-bit
reinterpretation fail, so `mnemonicToEntropy`, `mnemonicToSeedSync` and
`mnemonicToSeed` all fail on it and `validateMnemonic` returns false; no
odd-length binary mnemonic is ever decoded. -/
theorem c10_odd_binary {sha : List Nat → List Nat}
    {kdf kdfA : (List Nat → List Nat) → List Nat → List Nat → Nat → Nat → List Nat}
    {prf : List Nat → List Nat} {nfkdFn : String → String} {wl : Wordlist}
    {pp : String} {bs : List Nat} (hodd : bs.length % 2 = 1) :
    (∀ e, mnemonicToEntropy sha nfkdFn (.bytes bs) wl ≠ .ok e)
    ∧ (∀ out, mnemonicToSeedSync kdf prf nfkdFn (.bytes bs) wl pp ≠ .ok out)
    ∧ (∀ out, mnemonicToSeed kdfA prf nfkdFn (.bytes bs) wl pp ≠ .ok out)
    ∧ validateMnemonic sha nfkdFn (.bytes bs) wl = false := by
  have hm : ∀ e, mnemonicToEntropy sha nfkdFn (.bytes bs) wl ≠ .ok e := by
    intro e h
    rw [mnemonicToEntropy_bytes] at h
    obtain ⟨a, ha, _⟩ := exc_bind_ok_iff.mp h
    rw [decodeBytes] at ha
    obtain ⟨u, hu, ha⟩ := exc_bind_ok_iff.mp ha
    obtain ⟨idx, hidx, _⟩ := exc_bind_ok_iff.mp ha
    have := bytesToU16_ok hidx
    omega
  have hsy : ∀ out, mnemonicToSeedSync kdf prf nfkdFn (.bytes bs) wl pp
      ≠ .ok out := by
    intro out h
    rw [mnemonicToSeedSync] at h
    obtain ⟨p, hp, _⟩ := exc_bind_ok_iff.mp h
    rw [encodeSeed_bytes] at hp
    obtain ⟨idx, hidx, _⟩ := exc_bind_ok_iff.mp hp
    have := bytesToU16_ok hidx
    omega
  have hsa : ∀ out, mnemonicToSeed kdfA prf nfkdFn (.bytes bs) wl pp
      ≠ .ok out := by
    intro out h
    rw [mnemonicToSeed] at h
    obtain ⟨p, hp, _⟩ := exc_bind_ok_iff.mp h
    rw [encodeSeed_bytes] at hp
    obtain ⟨idx, hidx, _⟩ := exc_bind_ok_iff.mp hp
    have := bytesToU16_ok hidx
    omega
  refine ⟨hm, hsy, hsa, ?_⟩
  rw [validateMnemonic]
  cases hx : mnemonicToEntropy sha nfkdFn (.bytes bs) wl with
  | ok e => exact absurd hx (hm e)
  | error c => rfl

/-- Witness for C10 at the single-byte binary mnemonic [0]. -/
theorem c10_odd_binary_witness :
    ([0] : List Nat).length % 2 = 1
    ∧ validateMnemonic shaW (fun s => s) (.bytes [0]) [] = false :=
  ⟨by decide,
    (@c10_odd_binary shaW (fun _ _ _ _ d => List.replicate d 0)
      (fun _ _ _ _ d => List.replicate d 0) (fun _ => []) (fun s => s) []
      "" [0] (by decide)).2.2.2⟩

end Bip39
